import Mathlib

/-!
Shallow embedding of the room registry, notification mailbox and stale-peer
sweeper of a P2P file-sharing rendezvous backend (`src/main.go`), together
with the spec's candidate relay.  Go's `map[K]V` is modelled as an
association list with overwrite-on-insert; each handler is a pure function
from the request plus the current time to a response and the next state.
-/

namespace P2PBackend

/-- Lookup in the association-list model of a Go `map[K]V`. -/
def mapLookup {κ α : Type} [DecidableEq κ] : List (κ × α) → κ → Option α
  | [], _ => none
  | (k, v) :: rest, key => if k = key then some v else mapLookup rest key

/-- Model of the Go map assignment `m[key] = val`: overwrite the entry in
place when the key is present, append it otherwise. -/
def mapInsert {κ α : Type} [DecidableEq κ] : List (κ × α) → κ → α → List (κ × α)
  | [], key, val => [(key, val)]
  | (k, v) :: rest, key, val =>
    if k = key then (key, val) :: rest else (k, v) :: mapInsert rest key val

/-- Model of the Go `delete(m, key)`. -/
def mapErase {κ α : Type} [DecidableEq κ] : List (κ × α) → κ → List (κ × α)
  | [], _ => []
  | (k, v) :: rest, key =>
    if k = key then mapErase rest key else (k, v) :: mapErase rest key

/-- The keys of a map, in entry order (Go's iteration visits each key once). -/
def mapKeys {κ α : Type} (m : List (κ × α)) : List κ := m.map Prod.fst

/-- `PeerMetadata` from `src/main.go`: one peer's membership record. -/
structure PeerMetadata where
  peerID : String
  joinedAt : Int
  lastSeen : Int
deriving Repr, DecidableEq

/-- A room's peer mapping (`Room.Peers` in `src/main.go`). -/
abbrev RoomPeers := List (String × PeerMetadata)

/-- `Notification` from `src/main.go`. -/
structure Notification where
  type : String
  peerId : String
  timestamp : Int
deriving Repr, DecidableEq

/-- The process-wide mutable state of `src/main.go`: the `rooms` registry and
the `pendingNotifications` mailbox table. -/
structure ServerState where
  rooms : List (String × RoomPeers)
  pendingNotifications : List (String × List Notification)
deriving Repr, DecidableEq

/-- The initial state: both global maps start empty. -/
def ServerState.empty : ServerState := { rooms := [], pendingNotifications := [] }

/-- The body a room handler responds with: `200` with peers and roomSize, or
`404` with \x22Room not found\x22. -/
inductive Response where
  | ok (peers : List String) (roomSize : Nat)
  | notFound
deriving Repr, DecidableEq

/-- The HTTP status a `Response` is written with. -/
def Response.status : Response → Nat
  | .ok _ _ => 200
  | .notFound => 404

/-- `createRoom` from `src/main.go`: ensure the room exists, insert the
caller's fresh record, and answer with the membership minus the caller. -/
def createRoom (now : Int) (roomCode peerId : String) (s : ServerState) :
    Response × ServerState :=
  let room := (mapLookup s.rooms roomCode).getD []
  let room' := mapInsert room peerId { peerID := peerId, joinedAt := now, lastSeen := now }
  let peers := (mapKeys room').filter (fun q => decide (q ≠ peerId))
  (.ok peers room'.length, { s with rooms := mapInsert s.rooms roomCode room' })

/-- One `pendingNotifications` append from the loop in `joinRoom`: create the
target's queue when absent, then append the notification. -/
def postNotification (pn : List (String × List Notification)) (target : String)
    (n : Notification) : List (String × List Notification) :=
  mapInsert pn target ((mapLookup pn target).getD [] ++ [n])

/-- The `for _, existingPeer := range existingPeers` loop of `joinRoom`. -/
def notifyAll (targets : List String) (n : Notification)
    (pn : List (String × List Notification)) : List (String × List Notification) :=
  match targets with
  | [] => pn
  | t :: rest => notifyAll rest n (postNotification pn t n)

/-- `joinRoom` from `src/main.go`: 404 when the room is absent; otherwise
snapshot the membership, insert the joiner's fresh record, queue one
`peer_joined` notification to every snapshotted peer, and answer with the
snapshot and the post-insertion size. -/
def joinRoom (now : Int) (roomCode peerId : String) (s : ServerState) :
    Response × ServerState :=
  match mapLookup s.rooms roomCode with
  | none => (.notFound, s)
  | some room =>
    let existingPeers := mapKeys room
    let room' := mapInsert room peerId { peerID := peerId, joinedAt := now, lastSeen := now }
    let pn' := notifyAll existingPeers
      { type := "peer_joined", peerId := peerId, timestamp := now } s.pendingNotifications
    (.ok existingPeers room'.length,
      { rooms := mapInsert s.rooms roomCode room', pendingNotifications := pn' })

/-- `leaveRoom` from `src/main.go`: always answer `success: true`; when the
room exists, delete the peer, and delete the room when that leaves it empty. -/
def leaveRoom (roomCode peerId : String) (s : ServerState) : Bool × ServerState :=
  match mapLookup s.rooms roomCode with
  | none => (true, s)
  | some room =>
    let room' := mapErase room peerId
    if room'.length = 0 then
      (true, { s with rooms := mapErase s.rooms roomCode })
    else
      (true, { s with rooms := mapInsert s.rooms roomCode room' })

/-- `getRoomPeers` from `src/main.go`: 404 when the room is absent; otherwise
refresh the requesting peer's `lastSeen` when one is supplied and is a member,
and answer with the full membership. -/
def getRoomPeers (now : Int) (roomCode requestingPeer : String) (s : ServerState) :
    Response × ServerState :=
  match mapLookup s.rooms roomCode with
  | none => (.notFound, s)
  | some room =>
    let room' :=
      if requestingPeer ≠ "" then
        match mapLookup room requestingPeer with
        | some peer => mapInsert room requestingPeer { peer with lastSeen := now }
        | none => room
      else room
    (.ok (mapKeys room') room'.length, { s with rooms := mapInsert s.rooms roomCode room' })

/-- `getNotifications` from `src/main.go`: read the peer's queue (empty when
absent), delete the queue, and answer with what was read. -/
def getNotifications (peerId : String) (s : ServerState) :
    List Notification × ServerState :=
  let notifications := (mapLookup s.pendingNotifications peerId).getD []
  (notifications,
    { s with pendingNotifications := mapErase s.pendingNotifications peerId })

/-- `staleThreshold` of `cleanupStaleConnections` in `src/main.go`:
five minutes, in seconds. -/
def staleThreshold : Int := 5 * 60

/-- The inner loop of `cleanupStaleConnections`: drop every peer whose
`now - lastSeen` exceeds the staleness threshold. -/
def sweepRoom (now : Int) : RoomPeers → RoomPeers
  | [] => []
  | (pid, peer) :: rest =>
    if now - peer.lastSeen > staleThreshold then sweepRoom now rest
    else (pid, peer) :: sweepRoom now rest

/-- The outer loop of `cleanupStaleConnections`: sweep each room, then drop
the room when it was left empty. -/
def cleanupRooms (now : Int) : List (String × RoomPeers) → List (String × RoomPeers)
  | [] => []
  | (code, room) :: rest =>
    let room' := sweepRoom now room
    if room'.length = 0 then cleanupRooms now rest
    else (code, room') :: cleanupRooms now rest

/-- One pass of the `cleanupStaleConnections` ticker body in `src/main.go`. -/
def cleanupPass (now : Int) (s : ServerState) : ServerState :=
  { s with rooms := cleanupRooms now s.rooms }

/-- Modelled from the spec: `CandidateEnvelope` of the CandidateRelay
(section 4.3); the relay has no implementation under the repository's
source files. -/
structure CandidateEnvelope where
  fromPeer : String
  candidate : String
  timestamp : Int
deriving Repr, DecidableEq

/-- Modelled from the spec: the CandidateRelay's per-destination queue bound
of 100 envelopes (section 4.3). -/
def candidateBound : Nat := 100

/-- Modelled from the spec: `enqueue(fromPeerId, toPeerId, candidate)` of the
CandidateRelay (section 4.3), absent from the repository's source files.
Appends an envelope to the destination's queue; when the queue length then
exceeds the bound of 100, the oldest entry is evicted (FIFO); the sender
always receives success. -/
def enqueueCandidate (now : Int) (fromPeerId toPeerId candidate : String)
    (relay : List (String × List CandidateEnvelope)) :
    Bool × List (String × List CandidateEnvelope) :=
  let q := (mapLookup relay toPeerId).getD [] ++
    [{ fromPeer := fromPeerId, candidate := candidate, timestamp := now }]
  let q' := if q.length > candidateBound then q.tail else q
  (true, mapInsert relay toPeerId q')

/-- The states reachable from the empty registry by createRoom, joinRoom,
leaveRoom and sweeper passes. -/
inductive Reachable : ServerState → Prop where
  | start : Reachable ServerState.empty
  | create (now : Int) (c p : String) {s : ServerState} :
      Reachable s → Reachable (createRoom now c p s).2
  | join (now : Int) (c p : String) {s : ServerState} :
      Reachable s → Reachable (joinRoom now c p s).2
  | leave (c p : String) {s : ServerState} :
      Reachable s → Reachable (leaveRoom c p s).2
  | sweep (now : Int) {s : ServerState} :
      Reachable s → Reachable (cleanupPass now s)

section MapLemmas

variable {κ α : Type} [DecidableEq κ]

theorem mapLookup_mapInsert (m : List (κ × α)) (k q : κ) (v : α) :
    mapLookup (mapInsert m k v) q = if k = q then some v else mapLookup m q := by
  induction m with
  | nil => simp [mapInsert, mapLookup]
  | cons kv rest ih =>
    obtain ⟨k', v'⟩ := kv
    by_cases h : k' = k
    · subst h
      simp only [mapInsert, if_pos rfl, mapLookup]
      split_ifs <;> simp_all [mapLookup]
    · simp only [mapInsert, if_neg h, mapLookup, ih]
      split_ifs <;> simp_all

theorem mapLookup_mapErase (m : List (κ × α)) (k q : κ) :
    mapLookup (mapErase m k) q = if k = q then none else mapLookup m q := by
  induction m with
  | nil => simp [mapErase, mapLookup]
  | cons kv rest ih =>
    obtain ⟨k', v'⟩ := kv
    by_cases h : k' = k
    · subst h
      simp only [mapErase, if_pos rfl, mapLookup, ih]
      split_ifs <;> simp_all
    · simp only [mapErase, if_neg h, mapLookup, ih]
      split_ifs <;> simp_all

theorem mapInsert_ne_nil (m : List (κ × α)) (k : κ) (v : α) :
    mapInsert m k v ≠ [] := by
  cases m with
  | nil => simp [mapInsert]
  | cons kv rest =>
    obtain ⟨k', v'⟩ := kv
    simp only [mapInsert]
    split_ifs <;> simp

theorem mem_mapKeys_iff (m : List (κ × α)) (q : κ) :
    q ∈ mapKeys m ↔ (mapLookup m q).isSome := by
  induction m with
  | nil => simp [mapKeys, mapLookup]
  | cons kv rest ih =>
    obtain ⟨k', v'⟩ := kv
    by_cases h : k' = q
    · subst h; simp [mapKeys, mapLookup]
    · simp [mapKeys, mapLookup, h, Ne.symm h] at ih ⊢
      exact ih

theorem mapErase_eq_self (m : List (κ × α)) (k : κ)
    (h : mapLookup m k = none) : mapErase m k = m := by
  induction m with
  | nil => simp [mapErase]
  | cons kv rest ih =>
    obtain ⟨k', v'⟩ := kv
    simp only [mapLookup] at h
    by_cases hk : k' = k
    · simp [hk] at h
    · simp only [mapErase, if_neg hk]
      rw [ih (by simpa [hk] using h)]

theorem mapInsert_eq_self (m : List (κ × α)) (k : κ) (v : α)
    (h : mapLookup m k = some v) : mapInsert m k v = m := by
  induction m with
  | nil => simp [mapLookup] at h
  | cons kv rest ih =>
    obtain ⟨k', v'⟩ := kv
    simp only [mapLookup] at h
    by_cases hk : k' = k
    · subst hk
      have hv : v' = v := by simpa using h
      subst hv
      simp [mapInsert]
    · simp only [if_neg hk] at h
      simp [mapInsert, hk, ih h]

theorem length_mapInsert_of_present (m : List (κ × α)) (k : κ) (v : α)
    (h : (mapLookup m k).isSome) : (mapInsert m k v).length = m.length := by
  induction m with
  | nil => simp [mapLookup] at h
  | cons kv rest ih =>
    obtain ⟨k', v'⟩ := kv
    by_cases hk : k' = k
    · simp [mapInsert, hk]
    · simp only [mapLookup, if_neg hk] at h
      simp [mapInsert, hk, ih h]

theorem mapKeys_mapInsert_of_present (m : List (κ × α)) (k : κ) (v : α)
    (h : (mapLookup m k).isSome) : mapKeys (mapInsert m k v) = mapKeys m := by
  induction m with
  | nil => simp [mapLookup] at h
  | cons kv rest ih =>
    obtain ⟨k', v'⟩ := kv
    by_cases hk : k' = k
    · subst hk; simp [mapInsert, mapKeys]
    · simp only [mapLookup, if_neg hk] at h
      simp [mapInsert, hk, mapKeys] at ih ⊢
      exact ih h

theorem mapKeys_mapInsert_of_absent (m : List (κ × α)) (k : κ) (v : α)
    (h : mapLookup m k = none) : mapKeys (mapInsert m k v) = mapKeys m ++ [k] := by
  induction m with
  | nil => simp [mapInsert, mapKeys]
  | cons kv rest ih =>
    obtain ⟨k', v'⟩ := kv
    simp only [mapLookup] at h
    by_cases hk : k' = k
    · simp [hk] at h
    · simp only [if_neg hk] at h
      simp [mapInsert, hk, mapKeys] at ih ⊢
      exact ih h

theorem nodup_mapKeys_mapInsert (m : List (κ × α)) (k : κ) (v : α)
    (h : (mapKeys m).Nodup) : (mapKeys (mapInsert m k v)).Nodup := by
  cases hl : mapLookup m k with
  | none =>
    rw [mapKeys_mapInsert_of_absent m k v hl]
    have hnm : k ∉ mapKeys m := by
      rw [mem_mapKeys_iff, hl]; simp
    simpa [List.nodup_append] using ⟨h, hnm⟩
  | some w =>
    rw [mapKeys_mapInsert_of_present m k v (by simp [hl])]
    exact h

end MapLemmas

/-- A room present in a reachable registry always has a non-empty peer
mapping. -/
def RegistryInv (s : ServerState) : Prop :=
  ∀ code room, mapLookup s.rooms code = some room → room ≠ []

theorem cleanupRooms_lookup_ne_nil (now : Int) (m : List (String × RoomPeers))
    (code : String) (room : RoomPeers)
    (h : mapLookup (cleanupRooms now m) code = some room) : room ≠ [] := by
  induction m with
  | nil => simp [cleanupRooms, mapLookup] at h
  | cons kv rest ih =>
    obtain ⟨c0, r0⟩ := kv
    simp only [cleanupRooms] at h
    split_ifs at h with hlen
    · exact ih h
    · simp only [mapLookup] at h
      split_ifs at h with hc
      · obtain rfl : sweepRoom now r0 = room := by simpa using h
        intro hnil
        exact hlen (by simp [hnil])
      · exact ih h

theorem registryInv_createRoom (now : Int) (c p : String) (s : ServerState)
    (h : RegistryInv s) : RegistryInv (createRoom now c p s).2 := by
  intro code room hr
  simp only [createRoom] at hr
  rw [mapLookup_mapInsert] at hr
  split_ifs at hr with hc
  · obtain rfl : mapInsert ((mapLookup s.rooms c).getD [])
        p { peerID := p, joinedAt := now, lastSeen := now } = room := by
      simpa using hr
    exact mapInsert_ne_nil _ _ _
  · exact h code room hr

theorem registryInv_joinRoom (now : Int) (c p : String) (s : ServerState)
    (h : RegistryInv s) : RegistryInv (joinRoom now c p s).2 := by
  intro code room hr
  cases hlook : mapLookup s.rooms c with
  | none =>
    simp only [joinRoom, hlook] at hr
    exact h code room hr
  | some r0 =>
    simp only [joinRoom, hlook] at hr
    rw [mapLookup_mapInsert] at hr
    split_ifs at hr with hc
    · obtain rfl : mapInsert r0 p { peerID := p, joinedAt := now, lastSeen := now } = room := by
        simpa using hr
      exact mapInsert_ne_nil _ _ _
    · exact h code room hr

theorem registryInv_leaveRoom (c p : String) (s : ServerState)
    (h : RegistryInv s) : RegistryInv (leaveRoom c p s).2 := by
  intro code room hr
  cases hlook : mapLookup s.rooms c with
  | none =>
    simp only [leaveRoom, hlook] at hr
    exact h code room hr
  | some r0 =>
    by_cases hlen : (mapErase r0 p).length = 0
    · simp only [leaveRoom, hlook, if_pos hlen, mapLookup_mapErase] at hr
      by_cases hc : c = code
      · simp [hc] at hr
      · rw [if_neg hc] at hr
        exact h code room hr
    · simp only [leaveRoom, hlook, if_neg hlen, mapLookup_mapInsert] at hr
      by_cases hc : c = code
      · rw [if_pos hc] at hr
        obtain rfl : mapErase r0 p = room := by simpa using hr
        intro hnil
        exact hlen (by simp [hnil])
      · rw [if_neg hc] at hr
        exact h code room hr

theorem registryInv_cleanupPass (now : Int) (s : ServerState)
    (_h : RegistryInv s) : RegistryInv (cleanupPass now s) := by
  intro code room hr
  exact cleanupRooms_lookup_ne_nil now s.rooms code room hr

theorem reachable_registryInv {s : ServerState} (h : Reachable s) : RegistryInv s := by
  induction h with
  | start => intro code room hr; simp [ServerState.empty, mapLookup] at hr
  | create now c p _ ih => exact registryInv_createRoom now c p _ ih
  | join now c p _ ih => exact registryInv_joinRoom now c p _ ih
  | leave c p _ ih => exact registryInv_leaveRoom c p _ ih
  | sweep now _ ih => exact registryInv_cleanupPass now _ ih

/-- Claim C1: for every finite sequence of createRoom, joinRoom, leaveRoom and
sweeper-pass operations starting from the empty registry, after each operation
a room code is present in the RoomRegistry if and only if that room's peer
mapping is non-empty. -/
theorem C1_room_present_iff_nonempty {s : ServerState} (h : Reachable s)
    (code : String) :
    (mapLookup s.rooms code).isSome ↔
      ∃ room, mapLookup s.rooms code = some room ∧ room ≠ [] := by
  constructor
  · intro hs
    obtain ⟨room, hr⟩ := Option.isSome_iff_exists.mp hs
    exact ⟨room, hr, reachable_registryInv h code room hr⟩
  · rintro ⟨room, hr, _⟩
    simp [hr]

/-- Witness for C1 at the state reached by one createRoom from the empty
registry. -/
theorem C1_witness :
    (mapLookup ((createRoom 0 "R" "p1" ServerState.empty).2).rooms "R").isSome ↔
      ∃ room,
        mapLookup ((createRoom 0 "R" "p1" ServerState.empty).2).rooms "R" = some room ∧
          room ≠ [] :=
  C1_room_present_iff_nonempty (Reachable.create 0 "R" "p1" Reachable.start) "R"

/-- Claim C2: joinRoom and getRoomPeers answer Room-not-found exactly when the
room code is absent from the registry, while createRoom always answers with a
membership snapshot and leaveRoom always answers success. -/
theorem C2_roomNotFound_iff :
    (∀ (now : Int) (c p : String) (s : ServerState),
        (joinRoom now c p s).1 = Response.notFound ↔ mapLookup s.rooms c = none)
  ∧ (∀ (now : Int) (c q : String) (s : ServerState),
        (getRoomPeers now c q s).1 = Response.notFound ↔ mapLookup s.rooms c = none)
  ∧ (∀ (now : Int) (c p : String) (s : ServerState),
        ∃ peers size, (createRoom now c p s).1 = Response.ok peers size)
  ∧ (∀ (c p : String) (s : ServerState), (leaveRoom c p s).1 = true) := by
  refine ⟨?_, ?_, ?_, ?_⟩
  · intro now c p s
    cases hlook : mapLookup s.rooms c <;> simp [joinRoom, hlook]
  · intro now c q s
    cases hlook : mapLookup s.rooms c <;> simp [getRoomPeers, hlook]
  · intro now c p s
    exact ⟨_, _, rfl⟩
  · intro c p s
    cases hlook : mapLookup s.rooms c with
    | none => simp [leaveRoom, hlook]
    | some r0 =>
      simp only [leaveRoom, hlook]
      split_ifs <;> rfl

/-- Claim C5: getNotifications returns the peer's queued notifications in
order and removes the queue; an absent queue yields the empty sequence; no
other peer's queue changes, the room registry does not change, and a second
consecutive drain yields the empty sequence. -/
theorem C5_drain_exactly_once (pid : String) (s : ServerState) :
    (getNotifications pid s).1 = (mapLookup s.pendingNotifications pid).getD []
  ∧ mapLookup ((getNotifications pid s).2).pendingNotifications pid = none
  ∧ (∀ q, q ≠ pid →
      mapLookup ((getNotifications pid s).2).pendingNotifications q =
        mapLookup s.pendingNotifications q)
  ∧ (getNotifications pid ((getNotifications pid s).2)).1 = []
  ∧ ((getNotifications pid s).2).rooms = s.rooms := by
  refine ⟨rfl, ?_, ?_, ?_, rfl⟩
  · simp [getNotifications, mapLookup_mapErase]
  · intro q hq
    simp [getNotifications, mapLookup_mapErase, Ne.symm hq]
  · simp [getNotifications, mapLookup_mapErase]

/-- Claim C8: leaveRoom always answers success; leaving an absent room, or an
absent peer of a (necessarily non-empty) existing room, changes no state; and
repeating the same leave leaves the registry exactly as one leave does. -/
theorem C8_leave_idempotent :
    (∀ (c p : String) (s : ServerState), (leaveRoom c p s).1 = true)
  ∧ (∀ (c p : String) (s : ServerState),
      mapLookup s.rooms c = none → (leaveRoom c p s).2 = s)
  ∧ (∀ (c p : String) (s : ServerState) (room : RoomPeers),
      mapLookup s.rooms c = some room → mapLookup room p = none → room ≠ [] →
        (leaveRoom c p s).2 = s)
  ∧ (∀ (c p : String) (s : ServerState),
      leaveRoom c p ((leaveRoom c p s).2) = (true, (leaveRoom c p s).2)) := by
  have hfst : ∀ (c p : String) (s : ServerState), (leaveRoom c p s).1 = true := by
    intro c p s
    cases hlook : mapLookup s.rooms c with
    | none => simp [leaveRoom, hlook]
    | some r0 =>
      simp only [leaveRoom, hlook]
      split_ifs <;> rfl
  refine ⟨hfst, ?_, ?_, ?_⟩
  · intro c p s hlook
    simp [leaveRoom, hlook]
  · intro c p s room hlook hpeer hne
    obtain ⟨rs, pn⟩ := s
    have he : mapErase room p = room := mapErase_eq_self room p hpeer
    simp [leaveRoom, hlook, he, hne, mapInsert_eq_self rs c room hlook]
  · intro c p s
    obtain ⟨rs, pn⟩ := s
    cases hlook : mapLookup rs c with
    | none => simp [leaveRoom, hlook]
    | some r0 =>
      by_cases hlen : mapErase r0 p = []
      · have hs1 : (leaveRoom c p ⟨rs, pn⟩).2 = ⟨mapErase rs c, pn⟩ := by
          simp [leaveRoom, hlook, hlen]
        rw [hs1]
        have h2 : mapLookup (mapErase rs c) c = (none : Option RoomPeers) := by
          simp [mapLookup_mapErase]
        simp [leaveRoom, h2]
      · have hs1 : (leaveRoom c p ⟨rs, pn⟩).2 = ⟨mapInsert rs c (mapErase r0 p), pn⟩ := by
          simp [leaveRoom, hlook, hlen]
        rw [hs1]
        have h2 : mapLookup (mapInsert rs c (mapErase r0 p)) c =
            some (mapErase r0 p) := by
          simp [mapLookup_mapInsert]
        have he : mapErase (mapErase r0 p) p = mapErase r0 p :=
          mapErase_eq_self _ _ (by simp [mapLookup_mapErase])
        simp [leaveRoom, h2, he, hlen, mapInsert_eq_self _ _ _ h2]

theorem notifyAll_lookup (targets : List String) (n : Notification)
    (pn : List (String × List Notification)) (hnd : targets.Nodup) (q : String) :
    mapLookup (notifyAll targets n pn) q =
      if q ∈ targets then some ((mapLookup pn q).getD [] ++ [n])
      else mapLookup pn q := by
  induction targets generalizing pn with
  | nil => simp [notifyAll]
  | cons t rest ih =>
    obtain ⟨hnt, hndr⟩ := List.nodup_cons.mp hnd
    simp only [notifyAll]
    rw [ih (postNotification pn t n) hndr]
    by_cases hq : q = t
    · subst hq
      simp [hnt, postNotification, mapLookup_mapInsert]
    · by_cases hqr : q ∈ rest <;>
        simp [hqr, hq, postNotification, mapLookup_mapInsert, Ne.symm hq]

/-- The demo registry of the spec's scenario: peer p1 creates room R at time 0
and peer p2 joins at time 1. -/
def demoState : ServerState :=
  (joinRoom 1 "R" "p2" (createRoom 0 "R" "p1" ServerState.empty).2).2

/-- The peer mapping of room R in `demoState`. -/
def demoRoom : RoomPeers :=
  [("p1", { peerID := "p1", joinedAt := 0, lastSeen := 0 }),
   ("p2", { peerID := "p2", joinedAt := 1, lastSeen := 1 })]

theorem demoState_room : mapLookup demoState.rooms "R" = some demoRoom := by decide

/-- Claim C3: createRoom answers with the room's membership excluding the
caller; joinRoom on an existing room answers with the full pre-join
membership, and with the membership count after the joiner's insertion as
roomSize. -/
theorem C3_returned_membership :
    (∀ (now : Int) (c p : String) (s : ServerState) (peers : List String) (size : Nat),
        (createRoom now c p s).1 = Response.ok peers size →
        ∃ room', mapLookup ((createRoom now c p s).2).rooms c = some room' ∧
          ∀ a, a ∈ peers ↔ a ∈ mapKeys room' ∧ a ≠ p)
  ∧ (∀ (now : Int) (c p : String) (s : ServerState) (room : RoomPeers)
        (peers : List String) (size : Nat),
        mapLookup s.rooms c = some room →
        (joinRoom now c p s).1 = Response.ok peers size →
        peers = mapKeys room ∧
        ∃ room', mapLookup ((joinRoom now c p s).2).rooms c = some room' ∧
          size = room'.length) := by
  constructor
  · intro now c p s peers size hresp
    simp only [createRoom, Response.ok.injEq] at hresp
    obtain ⟨hp, -⟩ := hresp
    refine ⟨mapInsert ((mapLookup s.rooms c).getD []) p
      { peerID := p, joinedAt := now, lastSeen := now }, ?_, ?_⟩
    · simp [createRoom, mapLookup_mapInsert]
    · intro a
      rw [← hp]
      simp [List.mem_filter]
  · intro now c p s room peers size hlook hresp
    simp only [joinRoom, hlook, Response.ok.injEq] at hresp
    obtain ⟨hp, hsz⟩ := hresp
    refine ⟨hp.symm, mapInsert room p { peerID := p, joinedAt := now, lastSeen := now },
      ?_, hsz.symm⟩
    simp [joinRoom, hlook, mapLookup_mapInsert]

/-- Claim C4: a successful joinRoom appends exactly one peer_joined
notification carrying the joiner's id to the mailbox of every peer that was a
member at join time, in the state the call returns, and leaves every other
mailbox unchanged. -/
theorem C4_join_notifies_members (now : Int) (c p : String) (s : ServerState)
    (room : RoomPeers)
    (hlook : mapLookup s.rooms c = some room)
    (hnd : (mapKeys room).Nodup) (q : String) :
    mapLookup ((joinRoom now c p s).2).pendingNotifications q =
      if q ∈ mapKeys room
      then some ((mapLookup s.pendingNotifications q).getD [] ++
        [{ type := "peer_joined", peerId := p, timestamp := now }])
      else mapLookup s.pendingNotifications q := by
  simp only [joinRoom, hlook]
  exact notifyAll_lookup (mapKeys room) _ s.pendingNotifications hnd q

/-- Witness for C4: after p3 joins the demo room, the mailbox of member p1
gained exactly the one peer_joined notification for p3. -/
theorem C4_witness :
    mapLookup ((joinRoom 2 "R" "p3" demoState).2).pendingNotifications "p1" =
      if "p1" ∈ mapKeys demoRoom
      then some ((mapLookup demoState.pendingNotifications "p1").getD [] ++
        [{ type := "peer_joined", peerId := "p3", timestamp := 2 }])
      else mapLookup demoState.pendingNotifications "p1" :=
  C4_join_notifies_members 2 "R" "p3" demoState demoRoom (by decide) (by decide) "p1"

/-- Claim C9: a joinRoom by an already-present peer overwrites that peer's
record with fresh joinedAt and lastSeen timestamps, adds no duplicate to the
membership, and leaves roomSize unchanged. -/
theorem C9_rejoin_refreshes (now : Int) (c p : String) (s : ServerState)
    (room : RoomPeers) (meta : PeerMetadata)
    (hlook : mapLookup s.rooms c = some room)
    (hmem : mapLookup room p = some meta)
    (hnd : (mapKeys room).Nodup) :
    (joinRoom now c p s).1 = Response.ok (mapKeys room) room.length
  ∧ ∃ room', mapLookup ((joinRoom now c p s).2).rooms c = some room' ∧
      mapLookup room' p = some { peerID := p, joinedAt := now, lastSeen := now } ∧
      (mapKeys room').Nodup ∧ room'.length = room.length := by
  have hlen : (mapInsert room p
      { peerID := p, joinedAt := now, lastSeen := now }).length = room.length :=
    length_mapInsert_of_present room p _ (by simp [hmem])
  constructor
  · simp [joinRoom, hlook, hlen]
  · refine ⟨mapInsert room p { peerID := p, joinedAt := now, lastSeen := now },
      ?_, ?_, ?_, hlen⟩
    · simp [joinRoom, hlook, mapLookup_mapInsert]
    · simp [mapLookup_mapInsert]
    · exact nodup_mapKeys_mapInsert room p _ hnd

/-- Witness for C9: p1 re-joins the demo room at time 5. -/
theorem C9_witness :
    (joinRoom 5 "R" "p1" demoState).1 = Response.ok (mapKeys demoRoom) demoRoom.length
  ∧ ∃ room', mapLookup ((joinRoom 5 "R" "p1" demoState).2).rooms "R" = some room' ∧
      mapLookup room' "p1" = some { peerID := "p1", joinedAt := 5, lastSeen := 5 } ∧
      (mapKeys room').Nodup ∧ room'.length = demoRoom.length :=
  C9_rejoin_refreshes 5 "R" "p1" demoState demoRoom
    { peerID := "p1", joinedAt := 0, lastSeen := 0 } (by decide) (by decide) (by decide)

/-- Claim C10: when the joiner is already a member, the snapshot joinRoom
answers with includes the joiner itself, and the joiner's own mailbox gains a
peer_joined notification naming the joiner. -/
theorem C10_self_join_snapshot (now : Int) (c p : String) (s : ServerState)
    (room : RoomPeers)
    (hlook : mapLookup s.rooms c = some room)
    (hnd : (mapKeys room).Nodup)
    (hmem : p ∈ mapKeys room) :
    (∃ size, (joinRoom now c p s).1 = Response.ok (mapKeys room) size ∧ p ∈ mapKeys room)
  ∧ mapLookup ((joinRoom now c p s).2).pendingNotifications p =
      some ((mapLookup s.pendingNotifications p).getD [] ++
        [{ type := "peer_joined", peerId := p, timestamp := now }]) := by
  constructor
  · refine ⟨(mapInsert room p { peerID := p, joinedAt := now, lastSeen := now }).length,
      ?_, hmem⟩
    simp [joinRoom, hlook]
  · simp only [joinRoom, hlook]
    rw [notifyAll_lookup (mapKeys room) _ s.pendingNotifications hnd p]
    simp [hmem]

/-- Witness for C10: p2 re-joins the demo room at time 3; the snapshot
contains p2 and p2's own mailbox got the notification about p2. -/
theorem C10_witness :
    (∃ size, (joinRoom 3 "R" "p2" demoState).1 = Response.ok (mapKeys demoRoom) size ∧
      "p2" ∈ mapKeys demoRoom)
  ∧ mapLookup ((joinRoom 3 "R" "p2" demoState).2).pendingNotifications "p2" =
      some ((mapLookup demoState.pendingNotifications "p2").getD [] ++
        [{ type := "peer_joined", peerId := "p2", timestamp := 3 }]) :=
  C10_self_join_snapshot 3 "R" "p2" demoState demoRoom (by decide) (by decide) (by decide)

theorem sweepRoom_lookup (now : Int) (room : RoomPeers) (p : String)
    (hnd : (mapKeys room).Nodup) :
    mapLookup (sweepRoom now room) p =
      match mapLookup room p with
      | none => none
      | some meta =>
        if now - meta.lastSeen > staleThreshold then none else some meta := by
  induction room with
  | nil => simp [sweepRoom, mapLookup]
  | cons kv rest ih =>
    obtain ⟨k, meta0⟩ := kv
    have hk : k ∉ mapKeys rest := (List.nodup_cons.mp hnd).1
    have hndr : (mapKeys rest).Nodup := (List.nodup_cons.mp hnd).2
    by_cases hstale : now - meta0.lastSeen > staleThreshold
    · simp only [sweepRoom, if_pos hstale, mapLookup]
      by_cases hp : k = p
      · subst hp
        have hrest : mapLookup rest k = none := by
          cases hr : mapLookup rest k with
          | none => rfl
          | some w =>
            exact absurd ((mem_mapKeys_iff rest k).mpr (by simp [hr])) hk
        rw [ih hndr, hrest]
        simp [hstale]
      · rw [ih hndr]
        simp [hp]
    · simp only [sweepRoom, if_neg hstale, mapLookup]
      by_cases hp : k = p
      · simp [hp, hstale]
      · rw [if_neg hp, if_neg hp, ih hndr]

theorem cleanupRooms_lookup (now : Int) (m : List (String × RoomPeers))
    (code : String) (hnd : (mapKeys m).Nodup) :
    mapLookup (cleanupRooms now m) code =
      match mapLookup m code with
      | none => none
      | some room =>
        if (sweepRoom now room).length = 0 then none
        else some (sweepRoom now room) := by
  induction m with
  | nil => simp [cleanupRooms, mapLookup]
  | cons kv rest ih =>
    obtain ⟨c0, r0⟩ := kv
    have hk : c0 ∉ mapKeys rest := (List.nodup_cons.mp hnd).1
    have hndr : (mapKeys rest).Nodup := (List.nodup_cons.mp hnd).2
    by_cases hlen : (sweepRoom now r0).length = 0
    · simp only [cleanupRooms, if_pos hlen, mapLookup]
      by_cases hc : c0 = code
      · subst hc
        have hrest : mapLookup rest c0 = none := by
          cases hr : mapLookup rest c0 with
          | none => rfl
          | some w =>
            exact absurd ((mem_mapKeys_iff rest c0).mpr (by simp [hr])) hk
        rw [ih hndr, hrest]
        simp [hlen]
      · rw [ih hndr]
        simp [hc]
    · simp only [cleanupRooms, if_neg hlen, mapLookup]
      by_cases hc : c0 = code
      · simp [hc, hlen]
      · rw [if_neg hc, if_neg hc, ih hndr]

/-- Claim C7: a sweeper pass removes exactly the peers whose now - lastSeen
exceeds the 5-minute staleness threshold, removes every room left empty, and
retains a peer whose lastSeen was refreshed within the threshold, in
particular one refreshed by the getRoomPeers heartbeat. -/
theorem C7_sweep_exact (now : Int) (s : ServerState)
    (hnd : (mapKeys s.rooms).Nodup) :
    (∀ code, mapLookup (cleanupPass now s).rooms code =
      match mapLookup s.rooms code with
      | none => none
      | some room =>
        if (sweepRoom now room).length = 0 then none
        else some (sweepRoom now room))
  ∧ (∀ (room : RoomPeers) (p : String), (mapKeys room).Nodup →
      mapLookup (sweepRoom now room) p =
        match mapLookup room p with
        | none => none
        | some meta =>
          if now - meta.lastSeen > staleThreshold then none else some meta)
  ∧ (∀ (t : Int) (code p : String) (room : RoomPeers) (meta : PeerMetadata),
      mapLookup s.rooms code = some room →
      mapLookup room p = some meta →
      (mapKeys room).Nodup →
      p ≠ "" →
      now - t ≤ staleThreshold →
      ∃ room',
        mapLookup (cleanupPass now ((getRoomPeers t code p s).2)).rooms code =
          some room' ∧
        mapLookup room' p = some { meta with lastSeen := t }) := by
  refine ⟨?_, ?_, ?_⟩
  · intro code
    exact cleanupRooms_lookup now s.rooms code hnd
  · intro room p hrnd
    exact sweepRoom_lookup now room p hrnd
  · intro t code p room meta hlook hpmem hrnd hne hfresh
    have hs1 : ((getRoomPeers t code p s).2).rooms =
        mapInsert s.rooms code (mapInsert room p { meta with lastSeen := t }) := by
      simp [getRoomPeers, hlook, hne, hpmem]
    have hnd1 : (mapKeys (((getRoomPeers t code p s).2).rooms)).Nodup := by
      rw [hs1]
      exact nodup_mapKeys_mapInsert _ _ _ hnd
    have hlook1 : mapLookup (((getRoomPeers t code p s).2).rooms) code =
        some (mapInsert room p { meta with lastSeen := t }) := by
      rw [hs1, mapLookup_mapInsert]
      simp
    have hndroom : (mapKeys (mapInsert room p { meta with lastSeen := t })).Nodup :=
      nodup_mapKeys_mapInsert _ _ _ hrnd
    have hpkeep : mapLookup (sweepRoom now (mapInsert room p { meta with lastSeen := t })) p =
        some { meta with lastSeen := t } := by
      rw [sweepRoom_lookup now _ p hndroom, mapLookup_mapInsert]
      simp [not_lt.mpr hfresh]
    have hlen : ¬(sweepRoom now (mapInsert room p { meta with lastSeen := t })).length = 0 := by
      intro h0
      rw [List.length_eq_zero.mp h0] at hpkeep
      simp [mapLookup] at hpkeep
    refine ⟨sweepRoom now (mapInsert room p { meta with lastSeen := t }), ?_, hpkeep⟩
    have := cleanupRooms_lookup now (((getRoomPeers t code p s).2).rooms) code hnd1
    rw [cleanupPass] at *
    rw [this, hlook1]
    simp [hlen]

/-- Witness for C7: one conjunct of the sweep characterization at the demo
registry, 400 seconds after the last activity in room R. -/
theorem C7_witness :
    mapLookup (cleanupPass 400 demoState).rooms "R" =
      match mapLookup demoState.rooms "R" with
      | none => none
      | some room =>
        if (sweepRoom 400 room).length = 0 then none
        else some (sweepRoom 400 room) :=
  (C7_sweep_exact 400 demoState (by decide)).1 "R"

/-- Claim C6: spec-modelled candidate relay bound: an enqueue keeps every
destination queue at no more than 100 envelopes, evicts exactly the oldest
envelope when the queue was full, performs a plain append otherwise, and
always reports success to the sender. -/
theorem C6_relay_bound (now : Int) (f t cand : String)
    (relay : List (String × List CandidateEnvelope))
    (hbound : ((mapLookup relay t).getD []).length ≤ candidateBound) :
    (enqueueCandidate now f t cand relay).1 = true
  ∧ ((mapLookup (enqueueCandidate now f t cand relay).2 t).getD []).length ≤
      candidateBound
  ∧ (((mapLookup relay t).getD []).length = candidateBound →
      (mapLookup (enqueueCandidate now f t cand relay).2 t).getD [] =
        ((mapLookup relay t).getD []).tail ++
          [{ fromPeer := f, candidate := cand, timestamp := now }])
  ∧ (((mapLookup relay t).getD []).length < candidateBound →
      (mapLookup (enqueueCandidate now f t cand relay).2 t).getD [] =
        (mapLookup relay t).getD [] ++
          [{ fromPeer := f, candidate := cand, timestamp := now }]) := by
  have hq : (mapLookup (enqueueCandidate now f t cand relay).2 t).getD [] =
      (if ((mapLookup relay t).getD [] ++
          [({ fromPeer := f, candidate := cand, timestamp := now } : CandidateEnvelope)]).length >
          candidateBound
        then ((mapLookup relay t).getD [] ++
          [({ fromPeer := f, candidate := cand, timestamp := now } : CandidateEnvelope)]).tail
        else (mapLookup relay t).getD [] ++
          [({ fromPeer := f, candidate := cand, timestamp := now } : CandidateEnvelope)]) := by
    simp [enqueueCandidate, mapLookup_mapInsert]
  refine ⟨rfl, ?_, ?_, ?_⟩
  · rw [hq]
    by_cases hfull : ((mapLookup relay t).getD []).length = candidateBound
    · have hgt : ((mapLookup relay t).getD [] ++
          [({ fromPeer := f, candidate := cand, timestamp := now } : CandidateEnvelope)]).length >
          candidateBound := by
        simp [hfull]
      rw [if_pos hgt]
      rw [List.length_tail]
      simp only [List.length_append, List.length_singleton]
      omega
    · have hngt : ¬((mapLookup relay t).getD [] ++
          [({ fromPeer := f, candidate := cand, timestamp := now } : CandidateEnvelope)]).length >
          candidateBound := by
        simp only [List.length_append, List.length_singleton, gt_iff_lt, not_lt]
        omega
      rw [if_neg hngt]
      simp only [List.length_append, List.length_singleton]
      omega
  · intro hfull
    rw [hq]
    have hgt : ((mapLookup relay t).getD [] ++
        [({ fromPeer := f, candidate := cand, timestamp := now } : CandidateEnvelope)]).length >
        candidateBound := by
      simp [hfull]
    rw [if_pos hgt]
    cases hpre : (mapLookup relay t).getD [] with
    | nil => simp [hpre, candidateBound] at hfull
    | cons e es => simp [hpre]
  · intro hlt
    rw [hq]
    have hngt : ¬((mapLookup relay t).getD [] ++
        [({ fromPeer := f, candidate := cand, timestamp := now } : CandidateEnvelope)]).length >
        candidateBound := by
      simp only [List.length_append, List.length_singleton, gt_iff_lt, not_lt]
      omega
    rw [if_neg hngt]

/-- Witness for C6: enqueueing into an empty relay stays within the bound. -/
theorem C6_witness :
    (enqueueCandidate 0 "a" "b" "c" []).1 = true
  ∧ ((mapLookup (enqueueCandidate 0 "a" "b" "c" []).2 "b").getD []).length ≤
      candidateBound :=
  ⟨(C6_relay_bound 0 "a" "b" "c" [] (by decide)).1,
   (C6_relay_bound 0 "a" "b" "c" [] (by decide)).2.1⟩

theorem demo_create_response :
    (createRoom 0 "ABCD" "p1" ServerState.empty).1 = Response.ok [] 1 := by decide

theorem demo_join_response :
    (joinRoom 1 "ABCD" "p2" (createRoom 0 "ABCD" "p1" ServerState.empty).2).1 =
      Response.ok ["p1"] 2 := by decide

theorem demo_join_unknown_room :
    (joinRoom 1 "ZZZZ" "p2" (createRoom 0 "ABCD" "p1" ServerState.empty).2).1 =
      Response.notFound := by decide

end P2PBackend
